import Mathlib

/-!
# Verification of `chainer/utils/walker_alias.py`

Shallow embedding of the `WalkerAlias` class (Walker's alias method):
the table construction in `WalkerAlias.__init__`, the CPU sampling path
`WalkerAlias.sample_xp` and the GPU sampling path `WalkerAlias.sample_gpu`.

Modelling conventions:
* Real-valued quantities (numpy `float32` probabilities and thresholds) are
  modelled by exact rationals `ℚ`; `int32` outcome indices by `ℤ`.
* The two numpy buffers allocated with `numpy.ndarray` start *uninitialized*;
  we model each buffer as a function `ℕ → Option _`, where `none` marks a cell
  that has never been written.  Reading an unwritten cell through the final
  table extraction is modelled as a construction failure (`none` result of
  `build`), since its value would be unspecified memory garbage.
* The Python `while` loop inside `__init__` is modelled with explicit fuel
  `il - ir`; the loop body decreases `il - ir` by exactly one, so this fuel is
  exact and the embedding computes by structural recursion.
* `pairs.sort()` sorts the `(probability, original index)` tuples by the
  lexicographic order, which is total and antisymmetric on pairs; any sorted
  permutation under such an order is unique, so `List.insertionSort` yields
  exactly the list Python's sort produces.
-/

namespace WalkerAlias

/-- Write value `v` at address `k` of a buffer modelled as `ℕ → Option α`. -/
def wr {α : Type} (f : ℕ → Option α) (k : ℕ) (v : α) : ℕ → Option α :=
  fun j => if j = k then some v else f j

/-- The mutable state of `WalkerAlias.__init__`: the two numpy buffers
`threshold` (length `N`) and `values` (length `2*N`), and the two sweep
pointers `il`, `ir`. -/
structure BState where
  thr : ℕ → Option ℚ
  vals : ℕ → Option ℤ
  il : ℕ
  ir : ℕ

/-- The value of `threshold[j]`, defaulting to `0` for an unwritten cell
(the default is irrelevant: all reads are proved to hit written cells). -/
def thrD (s : BState) (j : ℕ) : ℚ :=
  (s.thr j).getD 0

/-- The inner `while p > 1 and ir < il` loop of `WalkerAlias.__init__`:
`values[ir * 2 + 1] = i; p -= 1.0 - threshold[ir]; ir += 1`.
The fuel argument is instantiated with `il - ir`, which the loop body
decreases by exactly one, so the fuel never runs out before the loop
condition fails. -/
def donateAux (i : ℤ) : ℕ → ℚ → BState → ℚ × BState
  | 0, p, s => (p, s)
  | fuel + 1, p, s =>
    if 1 < p ∧ s.ir < s.il then
      donateAux i fuel (p - (1 - thrD s s.ir))
        { s with vals := wr s.vals (2 * s.ir + 1) i, ir := s.ir + 1 }
    else (p, s)

/-- The donation loop of `WalkerAlias.__init__` entered with scaled mass `p`
for outcome `i`. -/
def donate (i : ℤ) (p : ℚ) (s : BState) : ℚ × BState :=
  donateAux i (s.il - s.ir) p s

/-- One iteration of the `for prob, i in pairs` loop of
`WalkerAlias.__init__`: scale `p = prob * len(probs)`, run the donation loop,
then `threshold[il] = p; values[il * 2] = i; il += 1`. -/
def step (N : ℕ) (s : BState) (pr : ℚ × ℕ) : BState :=
  let res := donate (pr.2 : ℤ) (pr.1 * (N : ℚ)) s
  { res.2 with
      thr := wr res.2.thr res.2.il res.1
      vals := wr res.2.vals (2 * res.2.il) (pr.2 : ℤ)
      il := res.2.il + 1 }

/-- The `for i in range(ir, len(probs)): values[i * 2 + 1] = 0` fill loop,
as a recursion on the number of remaining iterations. -/
def fillAux : ℕ → ℕ → BState → BState
  | _, 0, s => s
  | j, n + 1, s => fillAux (j + 1) n { s with vals := wr s.vals (2 * j + 1) 0 }

/-- `# fill the rest` loop of `WalkerAlias.__init__`. -/
def fillFrom (N : ℕ) (s : BState) : BState :=
  fillAux s.ir (N - s.ir) s

/-- The order Python uses to sort the `(prob, index)` tuples:
lexicographic on the pair. -/
def pairLE (a b : ℚ × ℕ) : Prop :=
  a.1 < b.1 ∨ (a.1 = b.1 ∧ a.2 ≤ b.2)

instance : DecidableRel pairLE := fun a b =>
  inferInstanceAs (Decidable (_ ∨ _))

instance : IsTotal (ℚ × ℕ) pairLE where
  total a b := by
    rcases lt_trichotomy a.1 b.1 with h | h | h
    · exact Or.inl (Or.inl h)
    · rcases Nat.le_total a.2 b.2 with h2 | h2
      · exact Or.inl (Or.inr ⟨h, h2⟩)
      · exact Or.inr (Or.inr ⟨h.symm, h2⟩)
    · exact Or.inr (Or.inl h)

instance : IsTrans (ℚ × ℕ) pairLE where
  trans a b c hab hbc := by
    rcases hab with h1 | ⟨h1, h1'⟩ <;> rcases hbc with h2 | ⟨h2, h2'⟩
    · exact Or.inl (h1.trans h2)
    · exact Or.inl (h2 ▸ h1)
    · exact Or.inl (h1 ▸ h2)
    · exact Or.inr ⟨h1.trans h2, h1'.trans h2'⟩

/-- `prob = numpy.array(probs, float32); prob /= numpy.sum(prob)`:
normalization of the weights to probabilities.  In `ℚ`, division by a zero
sum yields `0` entries (numpy would produce non-finite values there; none of
the proved statements about that case depend on the quotient values). -/
def normalize (w : List ℚ) : List ℚ :=
  w.map (fun x => x / w.sum)

/-- `pairs = list(zip(prob, range(len(probs))))`. -/
def pairsOf (w : List ℚ) : List (ℚ × ℕ) :=
  (normalize w).zip (List.range w.length)

/-- `pairs.sort()`: ascending lexicographic sort of the pairs. -/
def sortedPairs (w : List ℚ) : List (ℚ × ℕ) :=
  (pairsOf w).insertionSort pairLE

/-- The freshly allocated state: both numpy buffers uninitialized,
`il, ir = 0, 0`. -/
def initState : BState :=
  ⟨fun _ => none, fun _ => none, 0, 0⟩

/-- The state of the builder after the pair loop and the fill loop of
`WalkerAlias.__init__` have run on weights `w`. -/
def buildState (w : List ℚ) : BState :=
  fillFrom w.length ((sortedPairs w).foldl (step w.length) initState)

/-- The finished alias table: `self.threshold` (length `N`) and `self.values`
(length `2*N`). -/
structure AliasTable where
  threshold : List ℚ
  values : List ℤ
deriving DecidableEq

/-- Read `n` consecutive cells of a buffer starting at address `j`;
`none` if any of them was never written. -/
def readFrom {α : Type} (f : ℕ → Option α) : ℕ → ℕ → Option (List α)
  | _, 0 => some []
  | j, n + 1 =>
    match f j, readFrom f (j + 1) n with
    | some a, some l => some (a :: l)
    | _, _ => none

/-- Extract the finished table from the builder state: materialize the two
buffers and run the `assert((values < len(threshold)).all())` check.
A read of an unwritten cell or a failing assert aborts construction. -/
def finalize (N : ℕ) (s : BState) : Option AliasTable :=
  match readFrom s.thr 0 N, readFrom s.vals 0 (2 * N) with
  | some ts, some vs =>
    if vs.all (fun v => decide (v < (N : ℤ))) then some ⟨ts, vs⟩ else none
  | _, _ => none

/-- `WalkerAlias.__init__(probs)`: the whole table construction. -/
def build (w : List ℚ) : Option AliasTable :=
  finalize w.length (buildState w)

/-- Modelled from the spec: `chainer.utils._getitem` (the gather-by-index
operation of the execution surface, not part of the source file), with numpy
integer-indexing semantics: a negative index wraps once from the end, an
index outside `[-len, len)` is an out-of-range error (`none`). -/
def getitem {α : Type} (l : List α) (i : ℤ) : Option α :=
  if 0 ≤ i then l.get? i.toNat
  else if -(l.length : ℤ) ≤ i then l.get? (i + l.length).toNat
  else none

/-- `pb.astype(numpy.int32)`: conversion of a float to `int32` truncates
toward zero. -/
def i32trunc (q : ℚ) : ℤ :=
  if q < 0 then -⌊-q⌋ else ⌊q⌋

/-- `WalkerAlias.sample_xp` for one uniform draw `u` (the batched numpy code
applies exactly this computation elementwise):
`pb = ps * len(self.threshold); index = pb.astype(int32);`
`left_right = _getitem(threshold, index) < (pb - index);`
`return _getitem(values, index * 2 + left_right)`.
`u` is the value the external uniform generator produced *after* the
`astype(float32)` conversion, which can round a double in `[0, 1)` up to
exactly `1.0`. -/
def sample_xp (t : AliasTable) (u : ℚ) : Option ℤ :=
  let pb : ℚ := u * (t.threshold.length : ℚ)
  let index : ℤ := i32trunc pb
  match getitem t.threshold index with
  | none => none
  | some th =>
    let lr : ℤ := if th < pb - (index : ℚ) then 1 else 0
    getitem t.values (index * 2 + lr)

/-- `WalkerAlias.sample_gpu` for one uniform draw `u`, following the CUDA
kernel: `pb = ps * b; index = __float2int_rd(pb);`
`if (index >= b) index = 0;  // fill_uniform sometimes returns 1.0`
`lr = threshold[index] < pb - index; vs = values[index * 2 + lr]`. -/
def sample_gpu (t : AliasTable) (u : ℚ) : Option ℤ :=
  let b : ℕ := t.threshold.length
  let pb : ℚ := u * (b : ℚ)
  let index0 : ℤ := ⌊pb⌋
  let index : ℤ := if (b : ℤ) ≤ index0 then 0 else index0
  match getitem t.threshold index with
  | none => none
  | some th =>
    let lr : ℤ := if th < pb - (index : ℚ) then 1 else 0
    getitem t.values (index * 2 + lr)

/-- One `sample_xp` method call viewed as a state transformer on the sampler
object: the method body contains no assignment to `self`, so the table
component is returned unchanged. -/
def sample_xp_call (t : AliasTable) (u : ℚ) : Option ℤ × AliasTable :=
  (sample_xp t u, t)

/-- One `sample_gpu` method call viewed as a state transformer on the
sampler object. -/
def sample_gpu_call (t : AliasTable) (u : ℚ) : Option ℤ × AliasTable :=
  (sample_gpu t u, t)

/-- A sequence of sampler method calls, threading the object state through
each call and collecting the outputs. -/
def sampleRun (m : AliasTable → ℚ → Option ℤ × AliasTable) (t : AliasTable) :
    List ℚ → List (Option ℤ) × AliasTable
  | [] => ([], t)
  | u :: us =>
    let r := m t u
    let rest := sampleRun m r.2 us
    (r.1 :: rest.1, rest.2)

/-- Everything the donation loop guarantees about its result. -/
structure DonateOut (i : ℤ) (p : ℚ) (s : BState) (res : ℚ × BState) : Prop where
  il_eq : res.2.il = s.il
  thr_eq : res.2.thr = s.thr
  ir_ge : s.ir ≤ res.2.ir
  ir_le : res.2.ir ≤ s.il
  odds : ∀ j, res.2.vals (2 * j + 1) =
    if s.ir ≤ j ∧ j < res.2.ir then some i else s.vals (2 * j + 1)
  evens : ∀ j, res.2.vals (2 * j) = s.vals (2 * j)
  mass : res.1 + (∑ j ∈ Finset.Ico res.2.ir res.2.il, thrD res.2 j) + (res.2.ir : ℚ)
    = p + (∑ j ∈ Finset.Ico s.ir s.il, thrD s j) + (s.ir : ℚ)
  p_le : (∀ j, j < s.il → thrD s j ≤ 1) → res.1 ≤ p
  exit : res.1 ≤ 1 ∨ res.2.ir = s.il

theorem donateOut_refl (i : ℤ) (p : ℚ) (s : BState) (hir : s.ir ≤ s.il)
    (hexit : p ≤ 1 ∨ s.ir = s.il) : DonateOut i p s (p, s) := by
  have h2 : ((p, s) : ℚ × BState).2 = s := rfl
  refine { il_eq := rfl, thr_eq := rfl, ir_ge := le_refl _, ir_le := hir,
           odds := ?_, evens := fun _ => rfl, mass := rfl,
           p_le := fun _ => le_refl _, exit := hexit }
  intro j
  rw [h2, if_neg (by omega)]

/-- Structural invariant of the pair loop: `l` is the list of pairs still to
be processed.  Tracks the pointers, which buffer cells have been written, and
that every written `values` entry is an index in `[0, N)`. -/
structure SInv (N : ℕ) (s : BState) (l : List (ℚ × ℕ)) : Prop where
  il_len : s.il + l.length = N
  ir_le : s.ir ≤ s.il
  thr_dom : ∀ j, (s.thr j).isSome ↔ j < s.il
  vals_even : ∀ j, (s.vals (2 * j)).isSome ↔ j < s.il
  vals_odd : ∀ j, (s.vals (2 * j + 1)).isSome ↔ j < s.ir
  vals_bound : ∀ k v, s.vals k = some v → 0 ≤ v ∧ v < (N : ℤ)
  idx_lt : ∀ pr ∈ l, pr.2 < N

/-- Mass invariant of the pair loop, available when the weights have nonzero
sum: the scaled probability mass still to be processed plus the thresholds of
the slots awaiting a donor accounts exactly for the `N - ir` unfinished
slots, every written threshold is `≤ 1`, and the remaining pairs are sorted
ascending. -/
structure MInv (N : ℕ) (s : BState) (l : List (ℚ × ℕ)) : Prop where
  thr_le : ∀ j, j < s.il → thrD s j ≤ 1
  mass : (l.map fun pr => pr.1 * (N : ℚ)).sum
    + (∑ j ∈ Finset.Ico s.ir s.il, thrD s j) + (s.ir : ℚ) = (N : ℚ)
  sorted : l.Pairwise pairLE

/-- The donation loop as the specification describes it (for the refinement
claim): "While `p > 1` and `ir < il`: assign `values[2*ir+1] = i`, subtract
`1 - threshold[ir]` from `p`, increment `ir`." -/
def specDonateAux (i : ℤ) : ℕ → ℚ → BState → ℚ × BState
  | 0, p, s => (p, s)
  | fuel + 1, p, s =>
    if 1 < p ∧ s.ir < s.il then
      specDonateAux i fuel (p - (1 - thrD s s.ir))
        { s with vals := wr s.vals (2 * s.ir + 1) i, ir := s.ir + 1 }
    else (p, s)

/-- One sweep iteration as the specification describes it: "for each pair
`(prob, i)` in ascending order, scale `p = prob * N`", run the donation
loop, then "set `threshold[il] = p` and `values[2*il] = i`; increment
`il`." -/
def specStep (N : ℕ) (s : BState) (pr : ℚ × ℕ) : BState :=
  let res := specDonateAux (pr.2 : ℤ) (s.il - s.ir) (pr.1 * (N : ℚ)) s
  { res.2 with
      thr := wr res.2.thr res.2.il res.1
      vals := wr res.2.vals (2 * res.2.il) (pr.2 : ℤ)
      il := res.2.il + 1 }

end WalkerAlias

namespace WalkerAlias

theorem wr_self {α : Type} (f : ℕ → Option α) (k : ℕ) (v : α) :
    wr f k v k = some v := by
  simp [wr]

theorem wr_ne {α : Type} (f : ℕ → Option α) (k : ℕ) (v : α) {j : ℕ}
    (h : j ≠ k) : wr f k v j = f j := by
  simp [wr, h]

theorem donateAux_out (i : ℤ) : ∀ (fuel : ℕ) (p : ℚ) (s : BState),
    s.il - s.ir ≤ fuel → s.ir ≤ s.il →
    DonateOut i p s (donateAux i fuel p s) := by
  intro fuel
  induction fuel with
  | zero =>
    intro p s hfuel hir
    exact donateOut_refl i p s hir (Or.inr (by omega))
  | succ fuel ih =>
    intro p s hfuel hir
    have hunfold : donateAux i (fuel + 1) p s =
        if 1 < p ∧ s.ir < s.il then
          donateAux i fuel (p - (1 - thrD s s.ir))
            { s with vals := wr s.vals (2 * s.ir + 1) i, ir := s.ir + 1 } else (p, s) := rfl
    by_cases h : 1 < p ∧ s.ir < s.il
    · have hlt : s.ir < s.il := h.2
      rw [hunfold, if_pos h]
      set p2 : ℚ := p - (1 - thrD s s.ir) with hp2
      set s2 : BState := { s with vals := wr s.vals (2 * s.ir + 1) i, ir := s.ir + 1 }
        with hs2
      have hs2il : s2.il = s.il := rfl
      have hs2ir : s2.ir = s.ir + 1 := rfl
      have hs2thr : s2.thr = s.thr := rfl
      have hs2vals : s2.vals = wr s.vals (2 * s.ir + 1) i := rfl
      have hth : thrD s2 = thrD s := rfl
      have O := ih p2 s2 (by omega) (by omega)
      set res : ℚ × BState := donateAux i fuel p2 s2 with hres
      have hril : res.2.il = s.il := by rw [O.il_eq, hs2il]
      have hrge : s.ir + 1 ≤ res.2.ir := by rw [← hs2ir]; exact O.ir_ge
      refine { il_eq := hril, thr_eq := ?_, ir_ge := by omega,
               ir_le := by rw [← hs2il]; exact O.ir_le,
               odds := ?_, evens := ?_, mass := ?_, p_le := ?_, exit := ?_ }
      · rw [O.thr_eq, hs2thr]
      · intro j
        rw [O.odds j, hs2ir, hs2vals]
        unfold wr
        split_ifs with c1 c2 c2 <;> first | rfl | omega
      · intro j
        rw [O.evens j, hs2vals, wr_ne _ _ _ (by omega)]
      · have hm := O.mass
        rw [hs2ir, hs2il] at hm
        simp only [hth] at hm
        have hbot := Finset.sum_eq_sum_Ico_succ_bot hlt (thrD s)
        rw [hbot]
        push_cast at hm ⊢
        linarith
      · intro hthr
        have h1 : ∀ j, j < s2.il → thrD s2 j ≤ 1 := hthr
        have hle := O.p_le h1
        have ht1 : thrD s s.ir ≤ 1 := hthr s.ir hlt
        calc res.1 ≤ p2 := hle
          _ ≤ p := by rw [hp2]; linarith
      · rcases O.exit with h1 | h2
        · exact Or.inl h1
        · exact Or.inr (by rw [← hs2il]; exact h2)
    · rw [hunfold, if_neg h]
      refine donateOut_refl i p s hir ?_
      rcases not_and_or.mp h with h1 | h2
      · exact Or.inl (le_of_not_lt h1)
      · exact Or.inr (by omega)

theorem step_sinv {N : ℕ} {s : BState} {pr : ℚ × ℕ} {l : List (ℚ × ℕ)}
    (hS : SInv N s (pr :: l)) : SInv N (step N s pr) l := by
  have O := donateAux_out (pr.2 : ℤ) (s.il - s.ir) (pr.1 * (N : ℚ)) s
    (le_refl _) hS.ir_le
  set res : ℚ × BState := donateAux (pr.2 : ℤ) (s.il - s.ir) (pr.1 * (N : ℚ)) s
    with hres
  set s' : BState := ⟨wr res.2.thr res.2.il res.1,
    wr res.2.vals (2 * res.2.il) (pr.2 : ℤ), res.2.il + 1, res.2.ir⟩ with hs'
  have hstep : step N s pr = s' := rfl
  have hthr' : s'.thr = wr res.2.thr res.2.il res.1 := rfl
  have hvals' : s'.vals = wr res.2.vals (2 * res.2.il) (pr.2 : ℤ) := rfl
  have hil' : s'.il = res.2.il + 1 := rfl
  have hir' : s'.ir = res.2.ir := rfl
  have hil : res.2.il = s.il := O.il_eq
  have hlen : s.il + (l.length + 1) = N := by simpa using hS.il_len
  have hprN : pr.2 < N := hS.idx_lt pr (List.mem_cons_self pr l)
  rw [hstep]
  refine { il_len := ?_, ir_le := ?_, thr_dom := ?_, vals_even := ?_,
           vals_odd := ?_, vals_bound := ?_, idx_lt := ?_ }
  · rw [hil', hil]; omega
  · rw [hir', hil']; have := O.ir_le; omega
  · intro j
    rw [hthr', hil']
    by_cases hj : j = res.2.il
    · subst hj
      rw [wr_self]
      simp
    · rw [wr_ne _ _ _ hj, O.thr_eq, hS.thr_dom j]
      omega
  · intro j
    rw [hvals', hil']
    by_cases hj : j = res.2.il
    · subst hj
      rw [wr_self]
      simp
    · rw [wr_ne _ _ _ (by omega), O.evens j, hS.vals_even j]
      omega
  · intro j
    rw [hvals', hir']
    rw [wr_ne _ _ _ (by omega), O.odds j]
    by_cases hc : s.ir ≤ j ∧ j < res.2.ir
    · rw [if_pos hc]
      simp
      omega
    · rw [if_neg hc, hS.vals_odd j]
      have := O.ir_ge
      omega
  · intro k v hkv
    rw [hvals'] at hkv
    by_cases hk : k = 2 * res.2.il
    · subst hk
      rw [wr_self] at hkv
      have hv : v = (pr.2 : ℤ) := by simpa using hkv.symm
      subst hv
      constructor
      · exact Int.ofNat_nonneg _
      · exact_mod_cast hprN
    · rw [wr_ne _ _ _ hk] at hkv
      obtain ⟨j, hj | hj⟩ : ∃ j, k = 2 * j ∨ k = 2 * j + 1 := ⟨k / 2, by omega⟩
      · subst hj
        rw [O.evens j] at hkv
        exact hS.vals_bound _ _ hkv
      · subst hj
        rw [O.odds j] at hkv
        by_cases hc : s.ir ≤ j ∧ j < res.2.ir
        · rw [if_pos hc] at hkv
          have hv : v = (pr.2 : ℤ) := by simpa using hkv.symm
          subst hv
          exact ⟨Int.ofNat_nonneg _, by exact_mod_cast hprN⟩
        · rw [if_neg hc] at hkv
          exact hS.vals_bound _ _ hkv
  · exact fun q hq => hS.idx_lt q (List.mem_cons_of_mem pr hq)

theorem pairLE_fst {a b : ℚ × ℕ} (h : pairLE a b) : a.1 ≤ b.1 := by
  rcases h with h | ⟨h, _⟩
  · exact le_of_lt h
  · exact le_of_eq h

theorem list_mul_le_sum (l : List ℚ) (c : ℚ) (h : ∀ x ∈ l, c ≤ x) :
    (l.length : ℚ) * c ≤ l.sum := by
  induction l with
  | nil => simp
  | cons a t ih =>
    have ha := h a (List.mem_cons_self a t)
    have ht := ih (fun x hx => h x (List.mem_cons_of_mem a hx))
    simp only [List.length_cons, List.sum_cons]
    push_cast
    linarith

theorem step_minv {N : ℕ} {s : BState} {pr : ℚ × ℕ} {l : List (ℚ × ℕ)}
    (hS : SInv N s (pr :: l)) (hM : MInv N s (pr :: l)) :
    MInv N (step N s pr) l := by
  have O := donateAux_out (pr.2 : ℤ) (s.il - s.ir) (pr.1 * (N : ℚ)) s
    (le_refl _) hS.ir_le
  set res : ℚ × BState := donateAux (pr.2 : ℤ) (s.il - s.ir) (pr.1 * (N : ℚ)) s
    with hres
  set s' : BState := ⟨wr res.2.thr res.2.il res.1,
    wr res.2.vals (2 * res.2.il) (pr.2 : ℤ), res.2.il + 1, res.2.ir⟩ with hs'
  have hstep : step N s pr = s' := rfl
  have hthr' : s'.thr = wr res.2.thr res.2.il res.1 := rfl
  have hil' : s'.il = res.2.il + 1 := rfl
  have hir' : s'.ir = res.2.ir := rfl
  have hil : res.2.il = s.il := O.il_eq
  have hthD : thrD res.2 = thrD s := by
    funext j
    unfold thrD
    rw [O.thr_eq]
  have hlen : s.il + (l.length + 1) = N := by simpa using hS.il_len
  obtain ⟨hhead, htail⟩ := List.pairwise_cons.mp hM.sorted
  have hple : res.1 ≤ pr.1 * (N : ℚ) := O.p_le hM.thr_le
  have massO := O.mass
  rw [hthD] at massO
  have massM : pr.1 * (N : ℚ) + ((l.map fun q => q.1 * (N : ℚ)).sum
      + (∑ j ∈ Finset.Ico s.ir s.il, thrD s j) + (s.ir : ℚ)) = (N : ℚ) := by
    have := hM.mass
    simp only [List.map_cons, List.sum_cons] at this
    linarith
  have hres_le_one : res.1 ≤ 1 := by
    rcases O.exit with hx | hx
    · exact hx
    · have hempty : Finset.Ico res.2.ir res.2.il = ∅ := by
        rw [hx, hil]
        exact Finset.Ico_self s.il
      rw [hempty] at massO
      simp only [Finset.sum_empty, add_zero, hx] at massO
      have hsum_ge : ((l.length : ℚ)) * res.1 ≤ (l.map fun q => q.1 * (N : ℚ)).sum := by
        have := list_mul_le_sum (l.map fun q => q.1 * (N : ℚ)) res.1 ?_
        · simpa using this
        · intro x hx2
          obtain ⟨q, hq, rfl⟩ := List.mem_map.mp hx2
          have h1 : pr.1 ≤ q.1 := pairLE_fst (hhead q hq)
          have h2 : pr.1 * (N : ℚ) ≤ q.1 * (N : ℚ) :=
            mul_le_mul_of_nonneg_right h1 (Nat.cast_nonneg N)
          linarith
      have hcast : (s.il : ℚ) + ((l.length : ℚ) + 1) = (N : ℚ) := by
        exact_mod_cast hlen
      have hpos : (0 : ℚ) < (l.length : ℚ) + 1 := by positivity
      nlinarith [massO, massM, hsum_ge, hcast]
  rw [hstep]
  refine { thr_le := ?_, mass := ?_, sorted := htail }
  · intro j hj
    rw [hil', hil] at hj
    unfold thrD
    rw [hthr']
    by_cases hjc : j = res.2.il
    · subst hjc
      rw [wr_self]
      exact hres_le_one
    · rw [wr_ne _ _ _ hjc, O.thr_eq]
      exact hM.thr_le j (by omega)
  · rw [hir', hil']
    have hirle : res.2.ir ≤ res.2.il := by rw [hil]; exact O.ir_le
    rw [Finset.sum_Ico_succ_top hirle]
    have hcong : (∑ j ∈ Finset.Ico res.2.ir res.2.il, thrD s' j)
        = ∑ j ∈ Finset.Ico res.2.ir res.2.il, thrD res.2 j := by
      refine Finset.sum_congr rfl ?_
      intro j hj
      have hjlt : j < res.2.il := (Finset.mem_Ico.mp hj).2
      unfold thrD
      rw [hthr', wr_ne _ _ _ (by omega)]
    have htop : thrD s' res.2.il = res.1 := by
      unfold thrD
      rw [hthr', wr_self]
      rfl
    rw [hcong, htop, hthD]
    push_cast at massO massM ⊢
    linarith

theorem foldl_sinv {N : ℕ} : ∀ (l : List (ℚ × ℕ)) (s : BState),
    SInv N s l → SInv N (l.foldl (step N) s) [] := by
  intro l
  induction l with
  | nil => exact fun s h => h
  | cons pr t ih =>
    intro s h
    rw [List.foldl_cons]
    exact ih _ (step_sinv h)

theorem foldl_minv {N : ℕ} : ∀ (l : List (ℚ × ℕ)) (s : BState),
    SInv N s l → MInv N s l → MInv N (l.foldl (step N) s) [] := by
  intro l
  induction l with
  | nil => exact fun s _ h => h
  | cons pr t ih =>
    intro s hS hM
    rw [List.foldl_cons]
    exact ih _ (step_sinv hS) (step_minv hS hM)

theorem sortedPairs_length (w : List ℚ) : (sortedPairs w).length = w.length := by
  unfold sortedPairs
  rw [List.length_insertionSort]
  unfold pairsOf normalize
  rw [List.length_zip, List.length_map, List.length_range, min_self]

theorem mem_sortedPairs {w : List ℚ} {pr : ℚ × ℕ} (h : pr ∈ sortedPairs w) :
    pr.2 < w.length := by
  unfold sortedPairs at h
  rw [List.mem_insertionSort] at h
  unfold pairsOf at h
  obtain ⟨a, b⟩ := pr
  exact List.mem_range.mp (List.of_mem_zip h).2

theorem sinv_init (w : List ℚ) : SInv w.length initState (sortedPairs w) := by
  refine { il_len := ?_, ir_le := le_refl _, thr_dom := ?_, vals_even := ?_,
           vals_odd := ?_, vals_bound := ?_, idx_lt := ?_ }
  · rw [sortedPairs_length]
    simp [initState]
  · intro j
    simp [initState]
  · intro j
    simp [initState]
  · intro j
    simp [initState]
  · intro k v hkv
    simp [initState] at hkv
  · exact fun pr h => mem_sortedPairs h

theorem list_sum_map_div (l : List ℚ) (c : ℚ) :
    (l.map fun x => x / c).sum = l.sum / c := by
  induction l with
  | nil => simp
  | cons a t ih => simp [ih, add_div]

theorem list_sum_map_mul (l : List ℚ) (c : ℚ) :
    (l.map fun x => x * c).sum = l.sum * c := by
  induction l with
  | nil => simp
  | cons a t ih => simp [ih, add_mul]

theorem normalize_sum (w : List ℚ) (h : w.sum ≠ 0) : (normalize w).sum = 1 := by
  unfold normalize
  rw [list_sum_map_div, div_self h]

theorem sortedPairs_mass (w : List ℚ) (h : w.sum ≠ 0) :
    ((sortedPairs w).map fun pr => pr.1 * (w.length : ℚ)).sum = (w.length : ℚ) := by
  have hperm : List.Perm (sortedPairs w) (pairsOf w) := List.perm_insertionSort pairLE _
  rw [(hperm.map _).sum_eq]
  have h2 : (pairsOf w).map (fun pr => pr.1 * (w.length : ℚ))
      = ((pairsOf w).map Prod.fst).map (fun x => x * (w.length : ℚ)) := by
    rw [List.map_map]
    rfl
  rw [h2]
  have h3 : (pairsOf w).map Prod.fst = normalize w := by
    unfold pairsOf
    apply List.map_fst_zip
    simp [normalize]
  rw [h3, list_sum_map_mul, normalize_sum w h, one_mul]

theorem minv_init (w : List ℚ) (h : w.sum ≠ 0) :
    MInv w.length initState (sortedPairs w) := by
  refine { thr_le := ?_, mass := ?_, sorted := ?_ }
  · intro j hj
    simp [initState] at hj
  · have h0 : initState.ir = 0 := rfl
    have h1 : initState.il = 0 := rfl
    rw [h0, h1, sortedPairs_mass w h]
    simp
  · exact List.sorted_insertionSort pairLE _

theorem fillAux_out : ∀ (n j : ℕ) (s : BState),
    (fillAux j n s).thr = s.thr ∧ (fillAux j n s).il = s.il ∧
    (fillAux j n s).ir = s.ir ∧
    (∀ k, (fillAux j n s).vals (2 * k + 1) =
      if j ≤ k ∧ k < j + n then some 0 else s.vals (2 * k + 1)) ∧
    (∀ k, (fillAux j n s).vals (2 * k) = s.vals (2 * k)) := by
  intro n
  induction n with
  | zero =>
    intro j s
    refine ⟨rfl, rfl, rfl, ?_, fun k => rfl⟩
    intro k
    rw [if_neg (by omega)]
    rfl
  | succ n ih =>
    intro j s
    have hunf : fillAux j (n + 1) s
        = fillAux (j + 1) n { s with vals := wr s.vals (2 * j + 1) 0 } := rfl
    set s2 : BState := { s with vals := wr s.vals (2 * j + 1) 0 } with hs2
    have hv2 : s2.vals = wr s.vals (2 * j + 1) 0 := rfl
    have hthr2 : s2.thr = s.thr := rfl
    have hil2 : s2.il = s.il := rfl
    have hir2 : s2.ir = s.ir := rfl
    obtain ⟨h1, h2, h3, h4, h5⟩ := ih (j + 1) s2
    rw [hunf]
    refine ⟨h1.trans hthr2, h2.trans hil2, h3.trans hir2, ?_, ?_⟩
    · intro k
      rw [h4 k, hv2]
      unfold wr
      split_ifs <;> first | rfl | omega
    · intro k
      rw [h5 k, hv2, wr_ne _ _ _ (by omega)]

/-- All structural facts about the builder state after both loops have run:
the slot pointer reached exactly `N`, every buffer cell in range was written,
every written `values` entry is in `[0, N)`, and the high branches of the
slots in `[ir, N)` hold the default `0`. -/
theorem buildState_out (w : List ℚ) :
    (buildState w).il = w.length ∧
    (buildState w).ir ≤ w.length ∧
    (∀ j, ((buildState w).thr j).isSome ↔ j < w.length) ∧
    (∀ j, ((buildState w).vals (2 * j)).isSome ↔ j < w.length) ∧
    (∀ j, ((buildState w).vals (2 * j + 1)).isSome ↔ j < w.length) ∧
    (∀ k v, (buildState w).vals k = some v → 0 ≤ v ∧ v < (w.length : ℤ)) ∧
    (∀ j, (buildState w).ir ≤ j → j < w.length →
      (buildState w).vals (2 * j + 1) = some 0) ∧
    (buildState w).thr = ((sortedPairs w).foldl (step w.length) initState).thr ∧
    (buildState w).ir = ((sortedPairs w).foldl (step w.length) initState).ir := by
  have hS := foldl_sinv (sortedPairs w) initState (sinv_init w)
  set s0 : BState := (sortedPairs w).foldl (step w.length) initState with hs0
  have hil : s0.il = w.length := by
    have := hS.il_len
    simpa using this
  have hirN : s0.ir ≤ w.length := by
    have := hS.ir_le
    omega
  have hbuild : buildState w = fillAux s0.ir (w.length - s0.ir) s0 := rfl
  obtain ⟨f1, f2, f3, f4, f5⟩ := fillAux_out (w.length - s0.ir) s0.ir s0
  rw [hbuild]
  have hrange : s0.ir + (w.length - s0.ir) = w.length := by omega
  refine ⟨f2.trans hil, by rw [f3]; exact hirN, ?_, ?_, ?_, ?_, ?_, f1, f3⟩
  · intro j
    rw [f1, hS.thr_dom j, hil]
  · intro j
    rw [f5 j, hS.vals_even j, hil]
  · intro j
    rw [f4 j]
    by_cases hc : s0.ir ≤ j ∧ j < s0.ir + (w.length - s0.ir)
    · rw [if_pos hc]
      simp
      omega
    · rw [if_neg hc, hS.vals_odd j]
      omega
  · intro k v hkv
    obtain ⟨j, hj | hj⟩ : ∃ j, k = 2 * j ∨ k = 2 * j + 1 := ⟨k / 2, by omega⟩
    · subst hj
      rw [f5 j] at hkv
      exact hS.vals_bound _ _ hkv
    · subst hj
      rw [f4 j] at hkv
      by_cases hc : s0.ir ≤ j ∧ j < s0.ir + (w.length - s0.ir)
      · rw [if_pos hc] at hkv
        have hv : v = 0 := by simpa using hkv.symm
        subst hv
        refine ⟨le_refl 0, ?_⟩
        rw [hrange] at hc
        have : (0 : ℕ) < w.length := by omega
        exact_mod_cast this
      · rw [if_neg hc] at hkv
        exact hS.vals_bound _ _ hkv
  · intro j hj1 hj2
    rw [f4 j, if_pos (by rw [f3] at hj1; omega)]

/-- When the weights have nonzero sum, every slot at or above the final
receiver pointer `ir` has its threshold equal to exactly `1`. -/
theorem buildState_thr_one (w : List ℚ) (h : w.sum ≠ 0) :
    ∀ j, (buildState w).ir ≤ j → j < w.length →
      (buildState w).thr j = some 1 := by
  have hS := foldl_sinv (sortedPairs w) initState (sinv_init w)
  have hM := foldl_minv (sortedPairs w) initState (sinv_init w) (minv_init w h)
  set s0 : BState := (sortedPairs w).foldl (step w.length) initState with hs0
  have hil : s0.il = w.length := by
    have := hS.il_len
    simpa using this
  have hmass : (∑ j ∈ Finset.Ico s0.ir s0.il, thrD s0 j) + (s0.ir : ℚ)
      = (w.length : ℚ) := by
    have := hM.mass
    simpa using this
  have hone : ∀ j ∈ Finset.Ico s0.ir s0.il, thrD s0 j = 1 := by
    by_contra hcon
    push_neg at hcon
    obtain ⟨j0, hj0, hne⟩ := hcon
    have hlt : thrD s0 j0 < 1 :=
      lt_of_le_of_ne (hM.thr_le j0 (Finset.mem_Ico.mp hj0).2) hne
    have hsumlt : (∑ j ∈ Finset.Ico s0.ir s0.il, thrD s0 j)
        < ∑ _j ∈ Finset.Ico s0.ir s0.il, (1 : ℚ) := by
      refine Finset.sum_lt_sum ?_ ⟨j0, hj0, hlt⟩
      exact fun i hi => hM.thr_le i (Finset.mem_Ico.mp hi).2
    rw [Finset.sum_const, Nat.card_Ico, nsmul_eq_mul, mul_one] at hsumlt
    have hcard : ((s0.il - s0.ir : ℕ) : ℚ) = (s0.il : ℚ) - (s0.ir : ℚ) := by
      have := hS.ir_le
      push_cast [Nat.cast_sub this]
      ring
    rw [hcard] at hsumlt
    have hilq : (s0.il : ℚ) = (w.length : ℚ) := by exact_mod_cast hil
    linarith
  obtain ⟨h1, h2, h3, h4, h5, h6, h7, h8, h9⟩ := buildState_out w
  rw [← hs0] at h8 h9
  intro j hj1 hj2
  rw [h8]
  have hj0 : j ∈ Finset.Ico s0.ir s0.il := by
    rw [Finset.mem_Ico]
    rw [h9] at hj1
    omega
  have hd := hone j hj0
  have hsome : (s0.thr j).isSome := by
    rw [← h8, h3 j]
    exact hj2
  obtain ⟨t, ht⟩ := Option.isSome_iff_exists.mp hsome
  rw [ht]
  unfold thrD at hd
  rw [ht] at hd
  simpa using hd

theorem readFrom_isSome {α : Type} (f : ℕ → Option α) :
    ∀ (n j : ℕ), (∀ k, k < n → (f (j + k)).isSome) →
      (readFrom f j n).isSome := by
  intro n
  induction n with
  | zero =>
    intro j _
    simp [readFrom]
  | succ n ih =>
    intro j h
    have h0 : (f j).isSome := by simpa using h 0 (by omega)
    obtain ⟨a, ha⟩ := Option.isSome_iff_exists.mp h0
    have hrest : (readFrom f (j + 1) n).isSome := by
      refine ih (j + 1) ?_
      intro k hk
      have := h (k + 1) (by omega)
      rwa [show j + (k + 1) = j + 1 + k by omega] at this
    obtain ⟨l, hl⟩ := Option.isSome_iff_exists.mp hrest
    simp [readFrom, ha, hl]

theorem readFrom_get {α : Type} (f : ℕ → Option α) :
    ∀ (n j : ℕ) (l : List α), readFrom f j n = some l →
      l.length = n ∧ ∀ k, k < n → l.get? k = f (j + k) := by
  intro n
  induction n with
  | zero =>
    intro j l h
    simp [readFrom] at h
    subst h
    exact ⟨rfl, fun k hk => absurd hk (by omega)⟩
  | succ n ih =>
    intro j l h
    unfold readFrom at h
    cases hf : f j with
    | none =>
      rw [hf] at h
      simp at h
    | some a =>
      cases hr : readFrom f (j + 1) n with
      | none =>
        rw [hf, hr] at h
        simp at h
      | some tl =>
        rw [hf, hr] at h
        simp at h
        obtain ⟨hlen, hget⟩ := ih (j + 1) tl hr
        subst h
        refine ⟨by simp [hlen], ?_⟩
        intro k hk
        cases k with
        | zero =>
          simpa using hf.symm
        | succ k =>
          have := hget k (by omega)
          rw [show j + (k + 1) = j + 1 + k by omega]
          simpa using this

theorem build_some_out {w : List ℚ} {t : AliasTable} (h : build w = some t) :
    t.threshold.length = w.length ∧ t.values.length = 2 * w.length ∧
    (∀ j, j < w.length → t.threshold.get? j = (buildState w).thr j) ∧
    (∀ k, k < 2 * w.length → t.values.get? k = (buildState w).vals k) := by
  obtain ⟨tths, tvls⟩ := t
  unfold build finalize at h
  cases hts : readFrom (buildState w).thr 0 w.length with
  | none =>
    rw [hts] at h
    simp at h
  | some ts =>
    cases hvs : readFrom (buildState w).vals 0 (2 * w.length) with
    | none =>
      rw [hts, hvs] at h
      simp at h
    | some vs =>
      rw [hts, hvs] at h
      by_cases hall : vs.all (fun v => decide (v < (w.length : ℤ))) = true
      · simp [hall] at h
        obtain ⟨h1', h2'⟩ := h
        subst h1'
        subst h2'
        obtain ⟨hl1, hg1⟩ := readFrom_get _ _ _ _ hts
        obtain ⟨hl2, hg2⟩ := readFrom_get _ _ _ _ hvs
        refine ⟨hl1, hl2, ?_, ?_⟩ <;> intro k hk
        · have := hg1 k hk
          simpa using this
        · have := hg2 k hk
          simpa using this
      · simp [hall] at h

theorem build_isSome (w : List ℚ) : (build w).isSome := by
  obtain ⟨h1, h2, h3, h4, h5, h6, h7, h8, h9⟩ := buildState_out w
  unfold build finalize
  have hts : (readFrom (buildState w).thr 0 w.length).isSome := by
    refine readFrom_isSome _ _ _ ?_
    intro k hk
    rw [show 0 + k = k by omega, h3 k]
    exact hk
  have hvs : (readFrom (buildState w).vals 0 (2 * w.length)).isSome := by
    refine readFrom_isSome _ _ _ ?_
    intro k hk
    rw [show 0 + k = k by omega]
    obtain ⟨j, hj | hj⟩ : ∃ j, k = 2 * j ∨ k = 2 * j + 1 := ⟨k / 2, by omega⟩
    · subst hj
      rw [h4 j]
      omega
    · subst hj
      rw [h5 j]
      omega
  obtain ⟨ts, hts'⟩ := Option.isSome_iff_exists.mp hts
  obtain ⟨vs, hvs'⟩ := Option.isSome_iff_exists.mp hvs
  rw [hts', hvs']
  have hall : vs.all (fun v => decide (v < (w.length : ℤ))) = true := by
    rw [List.all_eq_true]
    intro v hv
    obtain ⟨hl2, hg2⟩ := readFrom_get _ _ _ _ hvs'
    obtain ⟨k, hk⟩ := List.get?_of_mem hv
    have hklt : k < 2 * w.length := by
      obtain ⟨hlt, -⟩ := List.get?_eq_some.mp hk
      omega
    have hvk := hg2 k hklt
    rw [hk, show 0 + k = k by omega] at hvk
    have hbound := h6 k v hvk.symm
    simpa using hbound.2
  simp [hall]

theorem sample_xp_def (t : AliasTable) (u : ℚ) :
    sample_xp t u =
      match getitem t.threshold (i32trunc (u * (t.threshold.length : ℚ))) with
      | none => none
      | some th =>
        getitem t.values (i32trunc (u * (t.threshold.length : ℚ)) * 2 +
          (if th < u * (t.threshold.length : ℚ)
              - ((i32trunc (u * (t.threshold.length : ℚ)) : ℤ) : ℚ)
           then 1 else 0)) := rfl

/-- Evaluation of one `sample_xp` draw on a well-formed table for `u` in
`[0, 1)`: the slot index is `⌊u * N⌋` and the branch comparison is
`threshold[index] < pb - index`. -/
theorem sample_xp_eval (t : AliasTable) (u : ℚ) (hN : 1 ≤ t.threshold.length)
    (h0 : 0 ≤ u) (h1 : u < 1) :
    sample_xp t u =
      if (t.threshold.get? (⌊u * (t.threshold.length : ℚ)⌋).toNat).getD 0
          < u * (t.threshold.length : ℚ) - ((⌊u * (t.threshold.length : ℚ)⌋ : ℤ) : ℚ)
      then t.values.get? (2 * (⌊u * (t.threshold.length : ℚ)⌋).toNat + 1)
      else t.values.get? (2 * (⌊u * (t.threshold.length : ℚ)⌋).toNat) := by
  rw [sample_xp_def]
  set N := t.threshold.length with hN0
  set pb : ℚ := u * (N : ℚ) with hpb
  have hpb0 : 0 ≤ pb := mul_nonneg h0 (Nat.cast_nonneg N)
  have hNq : (1 : ℚ) ≤ (N : ℚ) := by exact_mod_cast hN
  have hpbN : pb < (N : ℚ) := by
    rw [hpb]
    calc u * (N : ℚ) < 1 * (N : ℚ) := by
          apply mul_lt_mul_of_pos_right h1
          linarith
      _ = (N : ℚ) := one_mul _
  have hfl0 : 0 ≤ ⌊pb⌋ := Int.floor_nonneg.mpr hpb0
  have hflN : ⌊pb⌋ < (N : ℤ) := by
    rw [Int.floor_lt]
    exact_mod_cast hpbN
  have htoN : (⌊pb⌋).toNat < N := by omega
  have htr : i32trunc pb = ⌊pb⌋ := by
    unfold i32trunc
    rw [if_neg (not_lt.mpr hpb0)]
  obtain ⟨th, hth⟩ : ∃ th, t.threshold.get? (⌊pb⌋).toNat = some th := by
    refine ⟨_, List.get?_eq_get ?_⟩
    rw [← hN0]
    exact htoN
  have hgt : getitem t.threshold ⌊pb⌋ = some th := by
    unfold getitem
    rw [if_pos hfl0]
    exact hth
  rw [htr]
  simp only [hgt, hth, Option.getD_some]
  by_cases hbr : th < pb - ((⌊pb⌋ : ℤ) : ℚ)
  · rw [if_pos hbr, if_pos hbr]
    unfold getitem
    rw [if_pos (by omega : (0 : ℤ) ≤ ⌊pb⌋ * 2 + 1)]
    rw [show (⌊pb⌋ * 2 + 1).toNat = 2 * (⌊pb⌋).toNat + 1 by omega]
  · rw [if_neg hbr, if_neg hbr]
    unfold getitem
    rw [if_pos (by omega : (0 : ℤ) ≤ ⌊pb⌋ * 2 + 0)]
    rw [show (⌊pb⌋ * 2 + 0).toNat = 2 * (⌊pb⌋).toNat by omega]

theorem sampleRun_xp (t : AliasTable) :
    ∀ us, sampleRun sample_xp_call t us = (us.map (sample_xp t), t) := by
  intro us
  induction us with
  | nil => rfl
  | cons u us ih =>
    show (sample_xp t u :: (sampleRun sample_xp_call t us).1,
      (sampleRun sample_xp_call t us).2) = _
    rw [ih]
    rfl

theorem sampleRun_gpu (t : AliasTable) :
    ∀ us, sampleRun sample_gpu_call t us = (us.map (sample_gpu t), t) := by
  intro us
  induction us with
  | nil => rfl
  | cons u us ih =>
    show (sample_gpu t u :: (sampleRun sample_gpu_call t us).1,
      (sampleRun sample_gpu_call t us).2) = _
    rw [ih]
    rfl

theorem specDonateAux_eq (i : ℤ) :
    ∀ (fuel : ℕ) (p : ℚ) (s : BState),
      specDonateAux i fuel p s = donateAux i fuel p s := by
  intro fuel
  induction fuel with
  | zero => exact fun p s => rfl
  | succ fuel ih =>
    intro p s
    show (if 1 < p ∧ s.ir < s.il then
        specDonateAux i fuel (p - (1 - thrD s s.ir))
          { s with vals := wr s.vals (2 * s.ir + 1) i, ir := s.ir + 1 }
      else (p, s)) =
      (if 1 < p ∧ s.ir < s.il then
        donateAux i fuel (p - (1 - thrD s s.ir))
          { s with vals := wr s.vals (2 * s.ir + 1) i, ir := s.ir + 1 }
      else (p, s))
    by_cases h : 1 < p ∧ s.ir < s.il
    · rw [if_pos h, if_pos h, ih]
    · rw [if_neg h, if_neg h]

theorem specStep_eq (N : ℕ) (s : BState) (pr : ℚ × ℕ) :
    specStep N s pr = step N s pr := by
  unfold specStep step donate
  rw [specDonateAux_eq]

/-- Claim C1, counterexample: building with the empty weight sequence does
not fail — `WalkerAlias.__init__` contains no validation and no
`InvalidDistribution`; it returns a size-0 table. -/
theorem c1_no_failure_on_empty :
    build ([] : List ℚ) = some ⟨[], []⟩ ∧ build ([] : List ℚ) ≠ none := by
  constructor
  · with_unfolding_all decide
  · with_unfolding_all decide

/-- Claim C1, amended: the Builder never fails.  For every weight sequence
(including empty, all-zero and negative weights) `WalkerAlias.__init__`
completes and returns a table: every buffer cell is written and the final
bounds assert always passes. -/
theorem c1_build_never_fails : ∀ w : List ℚ, (build w).isSome :=
  fun w => build_isSome w

/-- Claim C2, code evaluated at the failing input: on the table built from
weights `[1, 1]` (so `N = 2`), a uniform draw whose `float32` value rounded
up to exactly `1.0` makes `sample_xp` compute slot index `2 = N` and read
`threshold[2]` out of range (an error, modelled as `none`) — `sample_xp`
has no `index == N` remap.  The CUDA path `sample_gpu` does remap
(`if (index >= b) index = 0`) and returns the in-range outcome `0`. -/
theorem c2_xp_missing_remap :
    build [(1 : ℚ), 1] = some ⟨[1, 1], [0, 0, 1, 0]⟩ ∧
    sample_xp ⟨[1, 1], [0, 0, 1, 0]⟩ 1 = none ∧
    sample_gpu ⟨[1, 1], [0, 0, 1, 0]⟩ 1 = some 0 := by
  refine ⟨?_, ?_, ?_⟩ <;> with_unfolding_all decide

/-- Claim C3: for every weight vector with `N ≥ 1` whose construction
completes, the `values` array has exactly `2 * N` entries and every entry
(low and high branch of every slot) is an outcome index in `[0, N)`. -/
theorem c3_values_in_range (w : List ℚ) (t : AliasTable)
    (hN : 1 ≤ w.length) (hb : build w = some t) :
    t.values.length = 2 * w.length ∧
    ∀ k, k < t.values.length →
      ∃ v, t.values.get? k = some v ∧ 0 ≤ v ∧ v < (w.length : ℤ) := by
  obtain ⟨hl1, hl2, hg1, hg2⟩ := build_some_out hb
  obtain ⟨b1, b2, b3, b4, b5, b6, b7, b8, b9⟩ := buildState_out w
  refine ⟨hl2, ?_⟩
  intro k hk
  rw [hl2] at hk
  have hgk := hg2 k hk
  have hsome : ((buildState w).vals k).isSome := by
    obtain ⟨j, hj | hj⟩ : ∃ j, k = 2 * j ∨ k = 2 * j + 1 := ⟨k / 2, by omega⟩
    · subst hj
      exact (b4 j).mpr (by omega)
    · subst hj
      exact (b5 j).mpr (by omega)
  obtain ⟨v, hv⟩ := Option.isSome_iff_exists.mp hsome
  refine ⟨v, ?_, b6 k v hv⟩
  rw [hgk, hv]

/-- Witness for C3 at the concrete weights `[1, 3]`. -/
theorem c3_witness :
    (AliasTable.mk [1/2, 1] [0, 1, 1, 0]).values.length
      = 2 * ([(1 : ℚ), 3] : List ℚ).length ∧
    ∀ k, k < (AliasTable.mk [1/2, 1] [0, 1, 1, 0]).values.length →
      ∃ v, (AliasTable.mk [1/2, 1] [0, 1, 1, 0]).values.get? k = some v ∧
        0 ≤ v ∧ v < (([(1 : ℚ), 3] : List ℚ).length : ℤ) :=
  c3_values_in_range [(1 : ℚ), 3] ⟨[1/2, 1], [0, 1, 1, 0]⟩ (by decide)
    (by with_unfolding_all decide)

/-- Claim C4: the Builder is exactly the sweep variant of Walker's alias
method as the specification states it: the `(probability, index)` pairs are
processed in ascending sorted order, and the loop body is precisely the
spec's donation loop and slot initialization (`specStep`, written from the
spec text, coincides with `step`, written from the source). -/
theorem c4_sweep_refinement (w : List ℚ) :
    List.Pairwise pairLE (sortedPairs w) ∧
    buildState w
      = fillFrom w.length ((sortedPairs w).foldl (specStep w.length) initState) := by
  constructor
  · exact List.sorted_insertionSort pairLE _
  · unfold buildState
    have hfe : specStep w.length = step w.length :=
      funext fun s => funext fun pr => specStep_eq _ _ _
    rw [hfe]

/-- Claim C5: on a nonempty table, for every draw `u` in `[0, 1)`,
`sample_xp` computes `pb = u * N`, `index = ⌊pb⌋`, and selects the high
branch `values[2 * index + 1]` exactly when
`threshold[index] < pb - index`, else the low branch `values[2 * index]`. -/
theorem c5_branch_selection (t : AliasTable) (u : ℚ)
    (hN : 1 ≤ t.threshold.length) (h0 : 0 ≤ u) (h1 : u < 1) :
    sample_xp t u =
      if (t.threshold.get? (⌊u * (t.threshold.length : ℚ)⌋).toNat).getD 0
          < u * (t.threshold.length : ℚ) - ((⌊u * (t.threshold.length : ℚ)⌋ : ℤ) : ℚ)
      then t.values.get? (2 * (⌊u * (t.threshold.length : ℚ)⌋).toNat + 1)
      else t.values.get? (2 * (⌊u * (t.threshold.length : ℚ)⌋).toNat) :=
  sample_xp_eval t u hN h0 h1

/-- Witness for C5 on the table of `[1, 3]` at `u = 7/8`: the draw lands in
slot 1 with fractional part `3/4`, `threshold[1] = 1` forces the low branch,
and the sample is outcome `1`. -/
theorem c5_witness : sample_xp ⟨[1/2, 1], [0, 1, 1, 0]⟩ (7/8) = some 1 := by
  have h := c5_branch_selection ⟨[1/2, 1], [0, 1, 1, 0]⟩ (7/8)
    (by decide) (by norm_num) (by norm_num)
  rw [h]
  with_unfolding_all decide

/-- Claim C6: for weights with positive sum, after construction every slot
`i` in `[ir, N)` (those that never received a donor) has its high branch
filled with the default `values[2*i+1] = 0`, and its threshold (equal to 1)
makes the sampler's branch comparison `threshold[index] < pb - index` false
for every draw `u` in `[0, 1)` that lands in slot `i`, so the high branch is
never selected there. -/
theorem c6_unfilled_slots (w : List ℚ) (hs : 0 < w.sum) :
    ∀ i, (buildState w).ir ≤ i → i < w.length →
      (buildState w).vals (2 * i + 1) = some 0 ∧
      ∀ u : ℚ, 0 ≤ u → u < 1 →
        i32trunc (u * (w.length : ℚ)) = (i : ℤ) →
        ¬ (((buildState w).thr i).getD 0
            < u * (w.length : ℚ) - ((i : ℕ) : ℚ)) := by
  intro i hi1 hi2
  obtain ⟨b1, b2, b3, b4, b5, b6, b7, b8, b9⟩ := buildState_out w
  refine ⟨b7 i hi1 hi2, ?_⟩
  intro u hu0 hu1 hidx
  have hth := buildState_thr_one w (ne_of_gt hs) i hi1 hi2
  rw [hth]
  simp only [Option.getD_some]
  have hpb0 : 0 ≤ u * (w.length : ℚ) := mul_nonneg hu0 (Nat.cast_nonneg _)
  have htr : i32trunc (u * (w.length : ℚ)) = ⌊u * (w.length : ℚ)⌋ := by
    unfold i32trunc
    rw [if_neg (not_lt.mpr hpb0)]
  rw [htr] at hidx
  have hlt : u * (w.length : ℚ) < ((i : ℕ) : ℚ) + 1 := by
    have h2 := Int.lt_floor_add_one (u * (w.length : ℚ))
    rw [hidx] at h2
    push_cast at h2 ⊢
    linarith
  linarith

/-- Witness for C6 at weights `[1, 3]` (final `ir = 1`), slot `1`, draw
`u = 3/4`. -/
theorem c6_witness :
    (buildState [(1 : ℚ), 3]).vals (2 * 1 + 1) = some 0 ∧
    ¬ (((buildState [(1 : ℚ), 3]).thr 1).getD 0
        < (3/4 : ℚ) * (([(1 : ℚ), 3] : List ℚ).length : ℚ) - ((1 : ℕ) : ℚ)) := by
  have h := c6_unfilled_slots [(1 : ℚ), 3] (by norm_num) 1
    (by with_unfolding_all decide) (by decide)
  exact ⟨h.1, h.2 (3/4) (by norm_num) (by norm_num) (by with_unfolding_all decide)⟩

/-- Claim C7: building with the single weight `[5.0]` yields the table
`threshold = [1]`, `values = [0, 0]`, and sampling returns outcome `0` for
every uniform draw in `[0, 1)`. -/
theorem c7_single_weight (u : ℚ) (h0 : 0 ≤ u) (h1 : u < 1) :
    build [(5 : ℚ)] = some ⟨[1], [0, 0]⟩ ∧
    sample_xp ⟨[1], [0, 0]⟩ u = some 0 := by
  refine ⟨by with_unfolding_all decide, ?_⟩
  have h := sample_xp_eval ⟨[1], [0, 0]⟩ u (by decide) h0 h1
  rw [h]
  norm_num
  have hfl : ⌊u⌋ = 0 := by
    rw [Int.floor_eq_zero_iff]
    exact ⟨h0, h1⟩
  rw [hfl]
  norm_num

/-- Witness for C7 at `u = 1/2`. -/
theorem c7_witness :
    build [(5 : ℚ)] = some ⟨[1], [0, 0]⟩ ∧
    sample_xp ⟨[1], [0, 0]⟩ (1/2) = some 0 :=
  c7_single_weight (1/2) (by norm_num) (by norm_num)

/-- Claim C8: construction writes every buffer cell before the bounds assert
runs: the slot pointer `il` ends at exactly `N`, all `N` `threshold` cells
and all `2 * N` `values` cells hold written values — the sampler never reads
memory left unwritten by the `numpy.ndarray` allocations. -/
theorem c8_all_cells_written (w : List ℚ) :
    (buildState w).il = w.length ∧
    (∀ j, j < w.length → ((buildState w).thr j).isSome) ∧
    (∀ k, k < 2 * w.length → ((buildState w).vals k).isSome) := by
  obtain ⟨b1, b2, b3, b4, b5, b6, b7, b8, b9⟩ := buildState_out w
  refine ⟨b1, fun j hj => (b3 j).mpr hj, ?_⟩
  intro k hk
  obtain ⟨j, hj | hj⟩ : ∃ j, k = 2 * j ∨ k = 2 * j + 1 := ⟨k / 2, by omega⟩
  · subst hj
    exact (b4 j).mpr (by omega)
  · subst hj
    exact (b5 j).mpr (by omega)

/-- Witness for C8 at weights `[1, 3]`, cell `3` of `values`. -/
theorem c8_witness : ((buildState [(1 : ℚ), 3]).vals 3).isSome :=
  (c8_all_cells_written [(1 : ℚ), 3]).2.2 3 (by decide)

/-- Claim C9: each `sample_xp` output depends only on its own draw and the
table (the run over a draw list is the elementwise map of `sample_xp`), so
permuting the draw sequence permutes the output sequence identically. -/
theorem c9_order_independent (t : AliasTable) (us vs : List ℚ)
    (hperm : List.Perm us vs) :
    (sampleRun sample_xp_call t us).1 = us.map (sample_xp t) ∧
    List.Perm (sampleRun sample_xp_call t us).1 (sampleRun sample_xp_call t vs).1 := by
  constructor
  · rw [sampleRun_xp]
  · rw [sampleRun_xp, sampleRun_xp]
    exact hperm.map _

/-- Witness for C9: swapping two draws on the `[5.0]` table. -/
theorem c9_witness :
    (sampleRun sample_xp_call ⟨[1], [0, 0]⟩ [0, 1/2]).1
      = [(0 : ℚ), 1/2].map (sample_xp ⟨[1], [0, 0]⟩) ∧
    List.Perm (sampleRun sample_xp_call ⟨[1], [0, 0]⟩ [0, 1/2]).1
      (sampleRun sample_xp_call ⟨[1], [0, 0]⟩ [1/2, 0]).1 :=
  c9_order_independent ⟨[1], [0, 0]⟩ [0, 1/2] [1/2, 0]
    (List.Perm.swap (1/2 : ℚ) 0 [])

/-- Claim C10: sampling never mutates the table: a run of `sample_xp` (or
`sample_gpu`) method calls threads the object state through unchanged — the
outputs are those computed against the original table and the final state is
the original table. -/
theorem c10_sampling_pure (t : AliasTable) (us : List ℚ) :
    sampleRun sample_xp_call t us = (us.map (sample_xp t), t) ∧
    sampleRun sample_gpu_call t us = (us.map (sample_gpu t), t) :=
  ⟨sampleRun_xp t us, sampleRun_gpu t us⟩

end WalkerAlias
